import Mathlib

/-!
Formal model of the `longpage` crate: the sparse, block-based container
(`src/sparse_vec.rs`) and the prefetch planner (`src/lib.rs`).

Modelling conventions:
* `usize` is modelled by `Nat`.  The one place the source relies on the finite
  range of `usize` is the sentinel `usize::MAX` used by `insert_vec` when there
  is no following block; it is modelled by the constant `USIZE_MAX = 2 ^ 64 - 1`.
  The planner's window-expansion addition `in_view.end + extra_load` can
  overflow `usize`; `nextRequestForViewWrap` models the wrapping (release-mode)
  semantics of that addition with an explicit `% 2 ^ 64`.
* `checked_sub(a, b).unwrap_or(0)` on `usize` is exactly truncated subtraction
  on `Nat`, so it is written `a - b`.
* Rust's `Range<usize>` is the structure `Range` below; `Range::len` for an
  upwards range is `end - start` saturating at zero, matching `Nat` subtraction.
* A panicking `assert!` is modelled by returning `none` (`insert_vec` returns
  `Option` here: `some` = normal return, `none` = panic).
* Rust iterators are modelled by their explicit state: `slice::Iter<'_, T>` by
  the list of remaining elements, and the `Iter` struct of `sparse_vec.rs` by a
  structure with the same four fields.  `Iterator::next` becomes a function
  `Iter α → Option (Option α × Iter α)` returning the yielded item and the
  successor state, and the finite sequence an iterator produces is recovered by
  `Iter.toList` (the iterator stops after `len - position` steps, which bounds
  the recursion).
-/

namespace Longpage

/-- The half-open index range `start..end` (Rust `Range<usize>`). -/
structure Range where
  start : Nat
  «end» : Nat
deriving DecidableEq, Repr

/-- Rust `Range::<usize>::len()`: `end - start`, saturating at zero. -/
def Range.len (r : Range) : Nat := r.«end» - r.start

/-- The `usize::MAX` sentinel used by `insert_vec` when no block follows. -/
def USIZE_MAX : Nat := 2 ^ 64 - 1

/-- The sparse container of `sparse_vec.rs`: a fixed logical length and the
ordered list of `(offset, data)` blocks. -/
structure SparseVec (α : Type u) where
  len : Nat
  blocks : List (Nat × List α)
deriving DecidableEq, Repr

/-- `SparseVec::with_len`: empty container of the given logical length. -/
def SparseVec.withLen (len : Nat) : SparseVec α :=
  { len := len, blocks := [] }

/-- `impl From<Vec<T>> for SparseVec<T>`: one fully populated block at offset 0. -/
def SparseVec.fromVec (vec : List α) : SparseVec α :=
  { len := vec.length, blocks := [(0, vec)] }

/-- State of the iterator returned by `iter` / `iter_range` (`struct Iter` in
`sparse_vec.rs`): the exclusive end of the iteration, the current absolute
position, the remaining blocks, and the current block (its offset together with
the elements not yet consumed, which models `Skip<slice::Iter<'_, T>>`). -/
structure Iter (α : Type u) where
  len : Nat
  position : Nat
  blocksIter : List (Nat × List α)
  blockIter : Option (Nat × List α)
deriving DecidableEq, Repr

/-- `Iter::next_block`: pull the next block (with nothing skipped) from the
remaining block list, or `none` when no blocks remain. -/
def Iter.nextBlock (it : Iter α) : Iter α :=
  match it.blocksIter with
  | [] => { it with blocksIter := [], blockIter := none }
  | b :: rest => { it with blocksIter := rest, blockIter := some b }

/-- Body of `<Iter as Iterator>::next` after the initial bounds test and
`block_iter` refresh: computes the yielded item and the state mutations other
than the final `position += 1`. -/
def Iter.step (it : Iter α) : Option α × Iter α :=
  match it.blockIter with
  | none => (none, it)
  | some (o, v) =>
    if it.position < o then (none, it)
    else
      match v with
      | x :: xs => (some x, { it with blockIter := some (o, xs) })
      | [] =>
        match it.nextBlock.blockIter with
        | none => (none, it.nextBlock)
        | some (o2, v2) =>
          if it.nextBlock.position < o2 then (none, it.nextBlock)
          else
            match v2 with
            | y :: ys => (some y, { it.nextBlock with blockIter := some (o2, ys) })
            | [] => (none, it.nextBlock)

/-- `<Iter as Iterator>::next`: `none` once `position` reaches `len`; otherwise
refresh an exhausted `block_iter`, run the body, and advance `position`. -/
def Iter.next (it : Iter α) : Option (Option α × Iter α) :=
  if it.len ≤ it.position then none
  else
    let s := Iter.step (if it.blockIter.isNone then it.nextBlock else it)
    some (s.1, { s.2 with position := s.2.position + 1 })

/-- Unfold an iterator for at most `fuel` steps. -/
def iterToListAux : Nat → Iter α → List (Option α)
  | 0, _ => []
  | fuel + 1, it =>
    match it.next with
    | none => []
    | some (x, it') => x :: iterToListAux fuel it'

/-- The finite sequence produced by an iterator (it yields exactly
`len - position` items, so that much fuel is enough). -/
def Iter.toList (it : Iter α) : List (Option α) :=
  iterToListAux (it.len - it.position) it

/-- The block-discarding loop at the top of `SparseVec::iter_range`: drop every
block whose span ends at or before `start`; on the first block extending past
`start`, skip its elements lying before `start`.  Returns the remaining block
list and the current block. -/
def discardBlocks (start : Nat) :
    List (Nat × List α) → List (Nat × List α) × Option (Nat × List α)
  | [] => ([], none)
  | (o, v) :: rest =>
    if start < o + v.length then (rest, some (o, v.drop (start - o)))
    else discardBlocks start rest

/-- `SparseVec::iter_range`. -/
def SparseVec.iterRange (sv : SparseVec α) (idxs : Range) : Iter α :=
  match discardBlocks idxs.start sv.blocks with
  | (rest, b) =>
    { len := idxs.«end», position := idxs.start, blocksIter := rest, blockIter := b }

/-- `SparseVec::iter`. -/
def SparseVec.iter (sv : SparseVec α) : Iter α :=
  { len := sv.len, position := 0, blocksIter := sv.blocks, blockIter := none }

/-- `Vec::insert(index, element)` on lists; the index never exceeds the length
at the call site below (`find_idx` is at most the list length). -/
def insertIdx : Nat → β → List β → List β
  | 0, x, l => x :: l
  | _ + 1, x, [] => [x]
  | n + 1, x, b :: rest => b :: insertIdx n x rest

/-- `SparseVec::insert_vec`.  `some` models a normal return, `none` models the
panic of a failed `assert!`.  The insertion position is the first block whose
offset is at least `start` (`Iterator::position`, defaulting to the number of
blocks); the first assertion checks the block before the insertion position,
the second checks against the offset of the block at the insertion position,
defaulting to `usize::MAX`. -/
def SparseVec.insertVec (sv : SparseVec α) (start : Nat) (vec : List α) :
    Option (SparseVec α) :=
  let insertPos := sv.blocks.findIdx fun b => decide (start ≤ b.1)
  let assert1 : Bool :=
    insertPos == 0 ||
      (match sv.blocks[insertPos - 1]? with
       | some b => decide (b.1 + b.2.length ≤ start)
       | none => false)
  let assert2 : Bool :=
    match sv.blocks[insertPos]? with
    | some b => decide (start + vec.length ≤ b.1)
    | none => decide (start + vec.length ≤ USIZE_MAX)
  if assert1 && assert2 then
    some { sv with blocks := insertIdx insertPos (start, vec) sv.blocks }
  else none

/-- Container states reachable through the public constructors and successful
insertions. -/
inductive Reachable : SparseVec α → Prop
  | withLen (n : Nat) : Reachable (SparseVec.withLen n)
  | fromVec (vec : List α) : Reachable (SparseVec.fromVec vec)
  | insert {sv sv' : SparseVec α} {start : Nat} {vec : List α} :
      Reachable sv → sv.insertVec start vec = some sv' → Reachable sv'

/-- Index `i` lies in the span of some block of the container. -/
def Covered (sv : SparseVec α) (i : Nat) : Prop :=
  ∃ b ∈ sv.blocks, b.1 ≤ i ∧ i < b.1 + b.2.length

instance (sv : SparseVec α) (i : Nat) : Decidable (Covered sv i) := by
  unfold Covered; infer_instance

/-- The `map_or(true, |l| l.len() < cur.len())` test of the planner: should the
current run replace the longest run recorded so far? -/
def longestLt (longest : Option Range) (cur : Range) : Bool :=
  match longest with
  | none => true
  | some l => decide (l.len < cur.len)

/-- The planner's scan loop over the enumerated items of
`iter_range(should_load)`: `pos` is the absolute index `should_load.start + i`
of the next item, `longest` the longest completed absent run so far, `current`
the start of the absent run in progress. -/
def scanLoop (longest : Option Range) (current : Option Nat) (pos : Nat) :
    List (Option α) → Option Range × Option Nat
  | [] => (longest, current)
  | item :: rest =>
    match item with
    | some _ =>
      match current with
      | some c =>
        scanLoop
          (if longestLt longest ⟨c, pos⟩ then some ⟨c, pos⟩ else longest)
          none (pos + 1) rest
      | none => scanLoop longest none (pos + 1) rest
    | none =>
      match current with
      | some c => scanLoop longest (some c) (pos + 1) rest
      | none => scanLoop longest (some pos) (pos + 1) rest

/-- The close-out after the planner's loop: a run still in progress is closed
with the exclusive scan bound and compared against the longest run. -/
def finalize (stop : Nat) (st : Option Range × Option Nat) : Option Range :=
  match st.2 with
  | some c => if longestLt st.1 ⟨c, stop⟩ then some ⟨c, stop⟩ else st.1
  | none => st.1

/-- The `should_load` window of `next_request_for_view`:
`start.checked_sub(extra).unwrap_or(0) .. (end + extra).min(data.len())`
with `extra = len(view) / 2`. -/
def shouldLoadFor (data : SparseVec α) (inView : Range) : Range :=
  ⟨inView.start - inView.len / 2, min (inView.«end» + inView.len / 2) data.len⟩

/-- `next_request_for_view` of `src/lib.rs` (idealized `Nat` arithmetic for the
window-expansion addition; see `nextRequestForViewWrap` for the wrapping
semantics of that addition). -/
def nextRequestForView (data : SparseVec α) (inView : Range) : Option Range :=
  if inView.len = 0 then none
  else
    let shouldLoad := shouldLoadFor data inView
    finalize shouldLoad.«end»
      (scanLoop none none shouldLoad.start (data.iterRange shouldLoad).toList)

/-- The `should_load` window with the addition `in_view.end + extra_load`
performed in `usize` (wrapping, i.e. release-mode) arithmetic. -/
def shouldLoadWrapFor (data : SparseVec α) (inView : Range) : Range :=
  ⟨inView.start - inView.len / 2,
    min ((inView.«end» + inView.len / 2) % 2 ^ 64) data.len⟩

/-- `next_request_for_view` with the window-expansion addition performed in
wrapping `usize` arithmetic; it agrees with `nextRequestForView` exactly when
that addition does not overflow. -/
def nextRequestForViewWrap (data : SparseVec α) (inView : Range) : Option Range :=
  if inView.len = 0 then none
  else
    let shouldLoad := shouldLoadWrapFor data inView
    finalize shouldLoad.«end»
      (scanLoop none none shouldLoad.start (data.iterRange shouldLoad).toList)

/-! Specification-side definitions, written from the spec's description of the
planner: the maximal runs of consecutive absent positions of a scanned item
sequence, and the first run of maximal length among them. -/

/-- Auxiliary for `absentRuns`: decompose the items into maximal runs of
consecutive `none`s.  `pos` is the absolute position of the next item; `copt`
carries the start of a run still open; a run still open when the items end is
closed with the exclusive bound `stop`. -/
def runsAux : Option Nat → Nat → Nat → List (Option α) → List Range
  | some c, _, stop, [] => [⟨c, stop⟩]
  | none, _, _, [] => []
  | some c, pos, stop, some _ :: rest => ⟨c, pos⟩ :: runsAux none (pos + 1) stop rest
  | none, pos, stop, some _ :: rest => runsAux none (pos + 1) stop rest
  | some c, pos, stop, none :: rest => runsAux (some c) (pos + 1) stop rest
  | none, pos, stop, none :: rest => runsAux (some pos) (pos + 1) stop rest

/-- The maximal runs of consecutive absent positions of an item sequence
scanned over the window `w`, in scan order; a trailing run is closed with the
window's exclusive end. -/
def absentRuns (w : Range) (items : List (Option α)) : List Range :=
  runsAux none w.start w.«end» items

/-- The first (lowest-index) run of maximal length: a later run replaces an
earlier one only when strictly longer. -/
def firstMaxRun : List Range → Option Range
  | [] => none
  | r :: rs =>
    match firstMaxRun rs with
    | none => some r
    | some m => if r.len < m.len then some m else some r

/-- Combine an already-recorded longest run with the best run of the remaining
scan, preferring the recorded one on ties (it is earlier). -/
def mergeBest (longest : Option Range) : Option Range → Option Range
  | none => longest
  | some m =>
    match longest with
    | none => some m
    | some l => if l.len < m.len then some m else some l

/-! Lemmas about the planner's scan loop. -/

theorem mergeBest_none (o : Option Range) : mergeBest none o = o := by
  cases o <;> rfl

/-- Recording a run `r` first and then taking the best of the rest is the same
as taking the best of `r :: rest`. -/
theorem mergeBest_firstMaxRun_cons (longest : Option Range) (r : Range) (L : List Range) :
    mergeBest longest (firstMaxRun (r :: L))
      = mergeBest (if longestLt longest r then some r else longest) (firstMaxRun L) := by
  cases longest with
  | none =>
    cases h : firstMaxRun L with
    | none => simp [firstMaxRun, h, mergeBest, longestLt]
    | some m =>
      by_cases hrm : r.len < m.len <;>
        simp [firstMaxRun, h, mergeBest, longestLt, hrm]
  | some l =>
    cases h : firstMaxRun L with
    | none =>
      by_cases hlr : l.len < r.len <;>
        simp [firstMaxRun, h, mergeBest, longestLt, hlr]
    | some m =>
      by_cases hrm : r.len < m.len
      · by_cases hlr : l.len < r.len
        · simp [firstMaxRun, h, mergeBest, longestLt, hrm, hlr,
            show l.len < m.len from by omega]
        · simp [firstMaxRun, h, mergeBest, longestLt, hrm, hlr]
      · by_cases hlr : l.len < r.len
        · simp [firstMaxRun, h, mergeBest, longestLt, hrm, hlr]
        · simp [firstMaxRun, h, mergeBest, longestLt, hrm, hlr,
            show ¬ l.len < m.len from by omega]

/-- The scan loop followed by the close-out computes the first maximal run
among the recorded longest run and the absent runs of the remaining items. -/
theorem scanLoop_spec (stop : Nat) (items : List (Option α)) :
    ∀ (copt : Option Nat) (pos : Nat) (longest : Option Range),
      finalize stop (scanLoop longest copt pos items)
        = mergeBest longest (firstMaxRun (runsAux copt pos stop items)) := by
  induction items with
  | nil =>
    intro copt pos longest
    cases copt with
    | none => simp [scanLoop, runsAux, finalize, firstMaxRun, mergeBest]
    | some c =>
      cases longest with
      | none => simp [scanLoop, runsAux, finalize, firstMaxRun, mergeBest, longestLt]
      | some l =>
        by_cases hl : l.len < Range.len ⟨c, stop⟩ <;>
          simp [scanLoop, runsAux, finalize, firstMaxRun, mergeBest, longestLt, hl]
  | cons item rest ih =>
    intro copt pos longest
    cases item with
    | some a =>
      cases copt with
      | none => simpa [scanLoop, runsAux] using ih none (pos + 1) longest
      | some c =>
        simp only [scanLoop, runsAux]
        rw [ih none (pos + 1), mergeBest_firstMaxRun_cons]
    | none =>
      cases copt with
      | none => simpa [scanLoop, runsAux] using ih (some pos) (pos + 1) longest
      | some c => simpa [scanLoop, runsAux] using ih (some c) (pos + 1) longest

/-! Lemmas about the iterator state machine: `next` yields exactly while
`position < len`, advancing `position` by one each time, so the produced
sequence has exactly `len - position` items. -/

theorem nextBlock_position (it : Iter α) : it.nextBlock.position = it.position := by
  unfold Iter.nextBlock; split <;> rfl

theorem nextBlock_len (it : Iter α) : it.nextBlock.len = it.len := by
  unfold Iter.nextBlock; split <;> rfl

theorem step_position (it : Iter α) : (Iter.step it).2.position = it.position := by
  unfold Iter.step
  split
  · rfl
  · split
    · rfl
    · split
      · rfl
      · split
        · exact nextBlock_position it
        · split
          · simp [nextBlock_position]
          · split
            · simp [nextBlock_position]
            · simp [nextBlock_position]

theorem step_len (it : Iter α) : (Iter.step it).2.len = it.len := by
  unfold Iter.step
  split
  · rfl
  · split
    · rfl
    · split
      · rfl
      · split
        · exact nextBlock_len it
        · split
          · simp [nextBlock_len]
          · split
            · simp [nextBlock_len]
            · simp [nextBlock_len]

theorem next_eq_none_iff (it : Iter α) : it.next = none ↔ it.len ≤ it.position := by
  unfold Iter.next; split <;> simp_all

theorem next_some (it it' : Iter α) (x : Option α) (h : it.next = some (x, it')) :
    it'.len = it.len ∧ it'.position = it.position + 1 := by
  unfold Iter.next at h
  split at h
  · exact absurd h (by simp)
  · set it1 := if it.blockIter.isNone then it.nextBlock else it with hit1
    have h1 : it1.position = it.position ∧ it1.len = it.len := by
      rw [hit1]; split <;> simp [nextBlock_position, nextBlock_len]
    simp only [Option.some.injEq, Prod.mk.injEq] at h
    obtain ⟨-, h2⟩ := h
    rw [← h2]
    simp [step_len, step_position, h1.1, h1.2]

theorem iterToListAux_length (n : Nat) :
    ∀ it : Iter α, it.len = it.position + n → (iterToListAux n it).length = n := by
  induction n with
  | zero => intro it _; rfl
  | succ m ih =>
    intro it hlen
    match h : it.next with
    | none =>
      rw [next_eq_none_iff] at h
      omega
    | some (x, it') =>
      obtain ⟨h1, h2⟩ := next_some it it' x h
      simp only [iterToListAux, h, List.length_cons]
      rw [ih it' (by omega)]

theorem toList_length (it : Iter α) : it.toList.length = it.len - it.position := by
  unfold Iter.toList
  by_cases h : it.position ≤ it.len
  · exact iterToListAux_length _ it (by omega)
  · have h0 : it.len - it.position = 0 := by omega
    rw [h0]; rfl

/-- Length of the item sequence produced by `iter_range`. -/
theorem iterRange_toList_length (sv : SparseVec α) (idxs : Range) :
    (sv.iterRange idxs).toList.length = idxs.«end» - idxs.start := by
  unfold SparseVec.iterRange
  split
  simp [toList_length]

/-- The planner, on a non-empty view, returns exactly the first maximal absent
run of the scan of the should-load window. -/
theorem nextRequest_eq_firstMaxRun (sv : SparseVec α) (inView : Range)
    (h : inView.len ≠ 0) :
    nextRequestForView sv inView
      = firstMaxRun
          (absentRuns (shouldLoadFor sv inView)
            ((sv.iterRange (shouldLoadFor sv inView)).toList)) := by
  unfold nextRequestForView absentRuns
  rw [if_neg h, scanLoop_spec, mergeBest_none]

/-! Lemmas about the absent-run decomposition and the first-maximal-run
selection. -/

theorem firstMaxRun_eq_none_iff (L : List Range) : firstMaxRun L = none ↔ L = [] := by
  cases L with
  | nil => simp [firstMaxRun]
  | cons r rs =>
    cases hrec : firstMaxRun rs with
    | none => simp [firstMaxRun, hrec]
    | some m =>
      by_cases hc : r.len < m.len <;> simp [firstMaxRun, hrec, hc]

theorem firstMaxRun_mem : ∀ (L : List Range) (m : Range), firstMaxRun L = some m → m ∈ L := by
  intro L
  induction L with
  | nil => intro m h; simp [firstMaxRun] at h
  | cons r rs ih =>
    intro m h
    cases hrec : firstMaxRun rs with
    | none =>
      simp only [firstMaxRun, hrec] at h
      injection h with h
      subst h
      exact List.mem_cons_self _ _
    | some m' =>
      simp only [firstMaxRun, hrec] at h
      by_cases hc : r.len < m'.len
      · rw [if_pos hc] at h
        injection h with h
        subst h
        exact List.mem_cons_of_mem r (ih _ hrec)
      · rw [if_neg hc] at h
        injection h with h
        subst h
        exact List.mem_cons_self _ _

theorem firstMaxRun_is_max :
    ∀ (L : List Range) (m : Range), firstMaxRun L = some m → ∀ r ∈ L, r.len ≤ m.len := by
  intro L
  induction L with
  | nil => intro m h; simp [firstMaxRun] at h
  | cons r rs ih =>
    intro m h s hs
    cases hrec : firstMaxRun rs with
    | none =>
      simp only [firstMaxRun, hrec] at h
      injection h with h
      subst h
      have hnil : rs = [] := (firstMaxRun_eq_none_iff rs).1 hrec
      subst hnil
      rcases List.mem_cons.1 hs with hs | hs
      · subst hs; exact Nat.le_refl _
      · simp at hs
    | some m' =>
      simp only [firstMaxRun, hrec] at h
      by_cases hc : r.len < m'.len
      · rw [if_pos hc] at h
        injection h with h
        subst h
        rcases List.mem_cons.1 hs with hs | hs
        · subst hs; omega
        · exact ih _ hrec s hs
      · rw [if_neg hc] at h
        injection h with h
        subst h
        rcases List.mem_cons.1 hs with hs | hs
        · subst hs; exact Nat.le_refl _
        · have := ih _ hrec s hs; omega

theorem runsAux_some_ne_nil (items : List (Option α)) :
    ∀ (c pos stop : Nat), runsAux (some c) pos stop items ≠ [] := by
  induction items with
  | nil => intro c pos stop; simp [runsAux]
  | cons item rest ih =>
    intro c pos stop
    cases item with
    | some a => simp [runsAux]
    | none => simpa [runsAux] using ih c (pos + 1) stop

theorem runsAux_none_eq_nil_iff (items : List (Option α)) :
    ∀ (pos stop : Nat), runsAux none pos stop items = [] ↔ ∀ x ∈ items, x ≠ none := by
  induction items with
  | nil => intro pos stop; simp [runsAux]
  | cons item rest ih =>
    intro pos stop
    cases item with
    | some a => simpa [runsAux] using ih (pos + 1) stop
    | none => simp [runsAux, runsAux_some_ne_nil]

/-- Soundness of the run decomposition: every produced run is non-empty, lies
within the scanned prefix, starts no earlier than the open-run start, and all
positions it covers (from `pos` on) carry an absent item. -/
theorem runsAux_sound (items : List (Option α)) :
    ∀ (copt : Option Nat) (pos : Nat) (r : Range),
      (∀ c, copt = some c → c < pos) →
      r ∈ runsAux copt pos (pos + items.length) items →
      copt.getD pos ≤ r.start ∧ r.start < r.«end» ∧ r.«end» ≤ pos + items.length ∧
        ∀ j, pos ≤ j → r.start ≤ j → j < r.«end» → items[j - pos]? = some none := by
  induction items with
  | nil =>
    intro copt pos r hc hr
    cases copt with
    | none => simp [runsAux] at hr
    | some c =>
      simp only [runsAux, List.mem_singleton] at hr
      subst hr
      refine ⟨Nat.le_refl c, hc c rfl, Nat.le_refl _, ?_⟩
      intro j h1 _ h3
      have h3' : j < pos + ([] : List (Option α)).length := h3
      simp only [List.length_nil, Nat.add_zero] at h3'
      omega
  | cons item rest ih =>
    intro copt pos r hc hr
    have hlen : pos + (item :: rest).length = (pos + 1) + rest.length := by
      simp only [List.length_cons]
      omega
    cases item with
    | some a =>
      cases copt with
      | none =>
        rw [hlen] at hr
        simp only [runsAux] at hr
        obtain ⟨h1, h2, h3, h4⟩ := ih none (pos + 1) r (by simp) hr
        have h1' : pos + 1 ≤ r.start := h1
        refine ⟨show pos ≤ r.start by omega, h2, ?_, ?_⟩
        · rw [hlen]
          exact h3
        · intro j hj1 hj2 hj3
          have h5 := h4 j (by omega) hj2 hj3
          have hidx : j - pos = (j - (pos + 1)) + 1 := by omega
          rw [hidx, List.getElem?_cons_succ]
          exact h5
      | some c =>
        rw [hlen] at hr
        simp only [runsAux, List.mem_cons] at hr
        rcases hr with hr | hr
        · subst hr
          refine ⟨Nat.le_refl c, hc c rfl, show pos ≤ pos + (rest.length + 1) from by omega, ?_⟩
          intro j h1 _ h3
          have h3' : j < pos := h3
          omega
        · obtain ⟨h1, h2, h3, h4⟩ := ih none (pos + 1) r (by simp) hr
          have h1' : pos + 1 ≤ r.start := h1
          have hcp : c < pos := hc c rfl
          refine ⟨show c ≤ r.start from by omega, h2, ?_, ?_⟩
          · rw [hlen]
            exact h3
          · intro j hj1 hj2 hj3
            have h5 := h4 j (by omega) hj2 hj3
            have hidx : j - pos = (j - (pos + 1)) + 1 := by omega
            rw [hidx, List.getElem?_cons_succ]
            exact h5
    | none =>
      cases copt with
      | none =>
        rw [hlen] at hr
        simp only [runsAux] at hr
        obtain ⟨h1, h2, h3, h4⟩ :=
          ih (some pos) (pos + 1) r (by intro c hcc; injection hcc with h; omega) hr
        have h1' : pos ≤ r.start := h1
        refine ⟨h1', h2, ?_, ?_⟩
        · rw [hlen]
          exact h3
        · intro j hj1 hj2 hj3
          rcases Nat.eq_or_lt_of_le hj1 with hj | hj
          · rw [← hj, Nat.sub_self]
            simp
          · have h5 := h4 j (by omega) hj2 hj3
            have hidx : j - pos = (j - (pos + 1)) + 1 := by omega
            rw [hidx, List.getElem?_cons_succ]
            exact h5
      | some c =>
        rw [hlen] at hr
        simp only [runsAux] at hr
        have hcp : c < pos := hc c rfl
        obtain ⟨h1, h2, h3, h4⟩ :=
          ih (some c) (pos + 1) r (by intro c' hcc; injection hcc with h; omega) hr
        have h1' : c ≤ r.start := h1
        refine ⟨h1', h2, ?_, ?_⟩
        · rw [hlen]
          exact h3
        · intro j hj1 hj2 hj3
          rcases Nat.eq_or_lt_of_le hj1 with hj | hj
          · rw [← hj, Nat.sub_self]
            simp
          · have h5 := h4 j (by omega) hj2 hj3
            have hidx : j - pos = (j - (pos + 1)) + 1 := by omega
            rw [hidx, List.getElem?_cons_succ]
            exact h5

/-! Lemmas about `find_idx` (`Iterator::position`), list insertion, and the
ordering invariant of the block list. -/

theorem findIdx_le_len (p : β → Bool) : ∀ l : List β, l.findIdx p ≤ l.length := by
  intro l
  induction l with
  | nil => simp [List.findIdx_nil]
  | cons b rest ih =>
    by_cases hb : p b
    · simp [List.findIdx_cons, hb]
    · simp [List.findIdx_cons, hb]
      omega

theorem findIdx_not_of_lt (p : β → Bool) :
    ∀ (l : List β) (i : Nat), i < l.findIdx p → ∀ b, l[i]? = some b → p b = false := by
  intro l
  induction l with
  | nil => intro i hi; simp [List.findIdx_nil] at hi
  | cons x rest ih =>
    intro i hi b hb
    by_cases hx : p x
    · simp [List.findIdx_cons, hx] at hi
    · cases i with
      | zero =>
        simp only [List.getElem?_cons_zero, Option.some.injEq] at hb
        subst hb
        simpa using hx
      | succ n =>
        simp only [List.findIdx_cons, hx, cond_false] at hi
        exact ih n (by omega) b (by simpa using hb)

theorem findIdx_prop (p : β → Bool) :
    ∀ (l : List β), ∀ b, l[l.findIdx p]? = some b → p b = true := by
  intro l
  induction l with
  | nil => intro b hb; simp at hb
  | cons x rest ih =>
    intro b hb
    by_cases hx : p x
    · simp only [List.findIdx_cons, hx, cond_true, List.getElem?_cons_zero,
        Option.some.injEq] at hb
      subst hb
      exact hx
    · simp only [List.findIdx_cons, hx, cond_false, List.getElem?_cons_succ] at hb
      exact ih b hb

/-- Inserting an element at position `k` preserves a chain, provided the
element links to its two new neighbours. -/
theorem chain'_insertIdx {R : β → β → Prop} :
    ∀ (k : Nat) (l : List β) (x : β), k ≤ l.length → l.Chain' R →
      (k ≠ 0 → ∀ b, l[k - 1]? = some b → R b x) →
      (∀ b, l[k]? = some b → R x b) →
      (insertIdx k x l).Chain' R := by
  intro k
  induction k with
  | zero =>
    intro l x _ hchain _ hnext
    rw [show insertIdx 0 x l = x :: l from rfl, List.chain'_cons']
    refine ⟨?_, hchain⟩
    intro y hy
    cases l with
    | nil => simp at hy
    | cons b rest =>
      simp only [List.head?_cons, Option.mem_def, Option.some.injEq] at hy
      exact hy ▸ hnext b (by simp)
  | succ n ih =>
    intro l x hk hchain hprev hnext
    cases l with
    | nil => simp at hk
    | cons b rest =>
      rw [show insertIdx (n + 1) x (b :: rest) = b :: insertIdx n x rest from rfl,
        List.chain'_cons']
      have hk' : n ≤ rest.length := by
        simp only [List.length_cons] at hk
        omega
      constructor
      · intro y hy
        cases n with
        | zero =>
          rw [show insertIdx 0 x rest = x :: rest from rfl] at hy
          simp only [List.head?_cons, Option.mem_def, Option.some.injEq] at hy
          exact hy ▸ hprev (by simp) b (by simp)
        | succ m =>
          cases rest with
          | nil => simp at hk'
          | cons b2 rest2 =>
            rw [show insertIdx (m + 1) x (b2 :: rest2) = b2 :: insertIdx m x rest2
              from rfl] at hy
            simp only [List.head?_cons, Option.mem_def, Option.some.injEq] at hy
            exact hy ▸ (List.chain'_cons'.1 hchain).1 b2 (by simp)
      · refine ih rest x hk' (List.chain'_cons'.1 hchain).2 ?_ ?_
        · intro hn b' hb'
          cases n with
          | zero => exact absurd rfl hn
          | succ m => exact hprev (by simp) b' (by simpa using hb')
        · intro b' hb'
          exact hnext b' (by simpa using hb')

/-- Ordering invariant of the block list, as maintained by `insert_vec`:
each block ends at or before the next one begins. -/
theorem reachable_blocks_ordered (sv : SparseVec α) (h : Reachable sv) :
    sv.blocks.Chain' (fun b1 b2 => b1.1 + b1.2.length ≤ b2.1) := by
  induction h with
  | withLen n => exact List.chain'_nil
  | fromVec vec => simp [SparseVec.fromVec]
  | insert hre heq ih =>
    rename_i sv1 sv2 start vec
    simp only [SparseVec.insertVec] at heq
    split at heq
    · rename_i hass
      injection heq with heq
      subst heq
      rw [Bool.and_eq_true] at hass
      obtain ⟨h1, h2⟩ := hass
      show (insertIdx _ (start, vec) sv1.blocks).Chain' _
      refine chain'_insertIdx _ _ _ (findIdx_le_len _ _) ih ?_ ?_
      · intro hne b hb
        simp only [hb, Bool.or_eq_true, beq_iff_eq, decide_eq_true_eq] at h1
        rcases h1 with h1 | h1
        · exact absurd h1 hne
        · exact h1
      · intro b hb
        simp only [hb, decide_eq_true_eq] at h2
        exact h2
    · exact absurd heq (by simp)

/-- A chain of the block-ordering relation is pairwise (the relation is
transitive because a block's offset is at most its end). -/
theorem blocks_chain'_pairwise :
    ∀ l : List (Nat × List α), l.Chain' (fun b1 b2 => b1.1 + b1.2.length ≤ b2.1) →
      l.Pairwise (fun b1 b2 => b1.1 + b1.2.length ≤ b2.1) := by
  intro l
  induction l with
  | nil => simp
  | cons b rest ih =>
    intro h
    rw [List.chain'_cons'] at h
    obtain ⟨hhead, htail⟩ := h
    rw [List.pairwise_cons]
    refine ⟨?_, ih htail⟩
    intro b' hb'
    cases rest with
    | nil => simp at hb'
    | cons h0 rest2 =>
      have hbh : b.1 + b.2.length ≤ h0.1 := hhead h0 (by simp)
      rcases List.mem_cons.1 hb' with hb' | hb'
      · subst hb'
        exact hbh
      · have hp := ih htail
        rw [List.pairwise_cons] at hp
        have := hp.1 b' hb'
        omega

/-- Exact success condition of `insert_vec` on an ordered block list: every
block beginning before `start` must end at or before `start`, every block
beginning at or after `start` must begin at or after `start + len(data)`, and
the inserted data must fit under the `usize::MAX` sentinel.  No comparison
with the logical length is involved. -/
theorem insertVec_isSome_iff (sv : SparseVec α) (start : Nat) (vec : List α)
    (hord : sv.blocks.Chain' (fun b1 b2 => b1.1 + b1.2.length ≤ b2.1))
    (hbound : start + vec.length ≤ USIZE_MAX) :
    (sv.insertVec start vec).isSome = true ↔
      ∀ b ∈ sv.blocks,
        (b.1 < start → b.1 + b.2.length ≤ start) ∧
        (start ≤ b.1 → start + vec.length ≤ b.1) := by
  have hpair := blocks_chain'_pairwise sv.blocks hord
  rw [List.pairwise_iff_getElem] at hpair
  obtain ⟨k, hkdef⟩ : ∃ k, sv.blocks.findIdx (fun b => decide (start ≤ b.1)) = k :=
    ⟨_, rfl⟩
  have hkle : k ≤ sv.blocks.length := hkdef ▸ findIdx_le_len _ _
  constructor
  · intro hsome b hb
    simp only [SparseVec.insertVec] at hsome
    split at hsome
    · rename_i hass
      rw [Bool.and_eq_true] at hass
      obtain ⟨h1, h2⟩ := hass
      rw [hkdef] at h1 h2
      obtain ⟨i, hi, hib⟩ := List.mem_iff_getElem.1 hb
      subst hib
      rcases Nat.lt_trichotomy i k with hik | hik | hik
      · -- before the insertion position: the offset is below `start`
        have hpf := findIdx_not_of_lt (fun b => decide (start ≤ b.1)) sv.blocks i
          (by rw [hkdef]; exact hik) _ (List.getElem?_eq_getElem hi)
        have hlt : sv.blocks[i].1 < start := by
          have := of_decide_eq_false hpf
          omega
        have hk0 : k ≠ 0 := by omega
        have hklen : k - 1 < sv.blocks.length := by omega
        have h1' : sv.blocks[k - 1].1 + sv.blocks[k - 1].2.length ≤ start := by
          rw [List.getElem?_eq_getElem hklen, Bool.or_eq_true] at h1
          rcases h1 with hx | hx
          · exact absurd (by simpa using hx) hk0
          · exact of_decide_eq_true hx
        constructor
        · intro _
          rcases Nat.eq_or_lt_of_le (show i ≤ k - 1 by omega) with he | hlt2
          · subst he
            exact h1'
          · have hpw := hpair i (k - 1) hi hklen hlt2
            omega
        · intro hle
          omega
      · -- at the insertion position
        subst hik
        have hq := List.getElem?_eq_getElem hi
        have hpt := findIdx_prop (fun b => decide (start ≤ b.1)) sv.blocks _
          (by rw [hkdef]; exact hq)
        have hle : start ≤ sv.blocks[i].1 := of_decide_eq_true hpt
        rw [hq] at h2
        have h2' : start + vec.length ≤ sv.blocks[i].1 := of_decide_eq_true h2
        exact ⟨fun hlt => by omega, fun _ => h2'⟩
      · -- after the insertion position
        have hki : k < sv.blocks.length := by omega
        have hq := List.getElem?_eq_getElem hki
        have hpt := findIdx_prop (fun b => decide (start ≤ b.1)) sv.blocks _
          (by rw [hkdef]; exact hq)
        have hle : start ≤ sv.blocks[k].1 := of_decide_eq_true hpt
        rw [hq] at h2
        have h2' : start + vec.length ≤ sv.blocks[k].1 := of_decide_eq_true h2
        have hpw := hpair k i hki hi hik
        exact ⟨fun hlt => by omega, fun _ => by omega⟩
    · simp at hsome
  · intro hcond
    have hcondA : ∀ prev, sv.blocks[k - 1]? = some prev → k ≠ 0 →
        prev.1 + prev.2.length ≤ start := by
      intro prev hq hk0
      obtain ⟨hplen, hpeq⟩ := List.getElem?_eq_some.1 hq
      have hpf := findIdx_not_of_lt (fun b => decide (start ≤ b.1)) sv.blocks (k - 1)
        (by rw [hkdef]; omega) prev hq
      have hlt : prev.1 < start := by
        have := of_decide_eq_false hpf
        omega
      exact (hcond prev (hpeq ▸ List.getElem_mem hplen)).1 hlt
    have hcondB : ∀ nxt, sv.blocks[k]? = some nxt → start + vec.length ≤ nxt.1 := by
      intro nxt hq
      obtain ⟨hnlen, hneq⟩ := List.getElem?_eq_some.1 hq
      have hpt := findIdx_prop (fun b => decide (start ≤ b.1)) sv.blocks nxt
        (by rw [hkdef]; exact hq)
      have hle : start ≤ nxt.1 := of_decide_eq_true hpt
      exact (hcond nxt (hneq ▸ List.getElem_mem hnlen)).2 hle
    have hnotnone : k ≠ 0 → ∃ prev, sv.blocks[k - 1]? = some prev := by
      intro hk0
      have hl : k - 1 < sv.blocks.length := by omega
      exact ⟨_, List.getElem?_eq_getElem hl⟩
    simp only [SparseVec.insertVec]
    rw [hkdef]
    cases hq2 : sv.blocks[k]? with
    | none =>
      by_cases hk0 : k = 0
      · simp [hk0, hbound]
      · obtain ⟨prev, hq1⟩ := hnotnone hk0
        rw [hq1]
        simp [hbound, hcondA prev hq1 hk0]
    | some nxt =>
      by_cases hk0 : k = 0
      · simp [hk0, hcondB nxt hq2]
      · obtain ⟨prev, hq1⟩ := hnotnone hk0
        rw [hq1]
        simp [hcondA prev hq1 hk0, hcondB nxt hq2]

/-! Sanity checks replicating the unit tests of the source files. -/

example :
    (SparseVec.withLen 5 : SparseVec Nat).iter.toList
      = [none, none, none, none, none] := by decide

example :
    (SparseVec.fromVec [1, 2, 3, 4, 5] : SparseVec Nat).iter.toList
      = [some 1, some 2, some 3, some 4, some 5] := by decide

example :
    ((SparseVec.withLen 5 : SparseVec Nat).insertVec 0 [1, 2]).bind
        (fun sv => sv.insertVec 3 [4, 5])
      = some { len := 5, blocks := [(0, [1, 2]), (3, [4, 5])] } := by decide

example :
    ({ len := 5, blocks := [(0, [1, 2]), (3, [4, 5])] } : SparseVec Nat).iter.toList
      = [some 1, some 2, none, some 4, some 5] := by decide

example :
    ((SparseVec.withLen 5 : SparseVec Nat).insertVec 0 [1, 2, 3]).bind
        (fun sv => sv.insertVec 3 [4, 5])
      = some { len := 5, blocks := [(0, [1, 2, 3]), (3, [4, 5])] } := by decide

example :
    ((SparseVec.withLen 5 : SparseVec Nat).insertVec 0 []).bind
        (fun sv => sv.insertVec 0 [])
      = some { len := 5, blocks := [(0, []), (0, [])] } := by decide

example :
    ({ len := 5, blocks := [(0, ([] : List Nat)), (0, [])] } : SparseVec Nat).iter.toList
      = [none, none, none, none, none] := by decide

example :
    ((SparseVec.withLen 5 : SparseVec Nat).insertVec 2 [3, 4]).bind
        (fun sv => sv.insertVec 0 [1, 2, 3])
      = none := by decide

example :
    ((SparseVec.withLen 5 : SparseVec Nat).insertVec 0 [1, 2, 3]).bind
        (fun sv => sv.insertVec 2 [3, 4])
      = none := by decide

example :
    ((SparseVec.withLen 5 : SparseVec Nat).iterRange ⟨3, 5⟩).toList
      = [none, none] := by decide

example :
    ((SparseVec.fromVec [1, 2, 3, 4, 5] : SparseVec Nat).iterRange ⟨3, 5⟩).toList
      = [some 4, some 5] := by decide

example :
    ((SparseVec.fromVec [1, 2, 3, 4, 5] : SparseVec Nat).iterRange ⟨0, 5⟩).toList
      = [some 1, some 2, some 3, some 4, some 5] := by decide

example :
    (({ len := 20, blocks := [(10, [10, 11, 12, 13, 14, 15, 16, 17, 18, 19])] } :
        SparseVec Nat).iterRange ⟨5, 20⟩).toList
      = [none, none, none, none, none, some 10, some 11, some 12, some 13, some 14,
          some 15, some 16, some 17, some 18, some 19] := by decide

example :
    nextRequestForView (SparseVec.withLen 20 : SparseVec Nat) ⟨0, 0⟩ = none := by decide

example :
    nextRequestForView (SparseVec.withLen 20 : SparseVec Nat) ⟨0, 10⟩
      = some ⟨0, 15⟩ := by decide

example :
    nextRequestForView (SparseVec.withLen 20 : SparseVec Nat) ⟨10, 20⟩
      = some ⟨5, 20⟩ := by decide

example :
    nextRequestForView (SparseVec.withLen 100 : SparseVec Nat) ⟨10, 20⟩
      = some ⟨5, 25⟩ := by decide

example :
    nextRequestForView (SparseVec.withLen 20 : SparseVec Nat) ⟨0, 20⟩
      = some ⟨0, 20⟩ := by decide

example :
    nextRequestForView
        ({ len := 20, blocks := [(0, [0, 1, 2, 3, 4, 5, 6, 7, 8, 9])] } : SparseVec Nat)
        ⟨0, 10⟩
      = some ⟨10, 15⟩ := by decide

example :
    nextRequestForView
        ({ len := 20, blocks := [(10, [10, 11, 12, 13, 14, 15, 16, 17, 18, 19])] } :
          SparseVec Nat)
        ⟨10, 20⟩
      = some ⟨5, 10⟩ := by decide

/-! Claim theorems. -/

/-- C1: the contract `iter_range(r) = iter().skip(r.start).take(len(r))` fails
on a reachable container.  After inserting `[10]` at 0, `[20]` at 1 and then
two empty vectors at 1 (all successful), `iter_range(1..2)` yields `[Some 20]`
while `iter().skip(1).take(1)` yields `[None]`: `Iter::next` advances at most
one extra block per step, so `iter` starting from position 0 loses the block
`(1, [20])` behind the two empty blocks. -/
theorem c1_iterRange_skip_take_mismatch :
    ((((SparseVec.withLen 2 : SparseVec Nat).insertVec 0 [10]).bind
        (fun s => s.insertVec 1 [20])).bind (fun s => s.insertVec 1 [])).bind
        (fun s => s.insertVec 1 [])
      = some { len := 2, blocks := [(0, [10]), (1, []), (1, []), (1, [20])] }
    ∧ (({ len := 2, blocks := [(0, [10]), (1, []), (1, []), (1, [20])] } :
          SparseVec Nat).iterRange ⟨1, 2⟩).toList = [some 20]
    ∧ (({ len := 2, blocks := [(0, [10]), (1, []), (1, []), (1, [20])] } :
          SparseVec Nat).iter.toList.drop 1).take 1 = [none] := by
  refine ⟨by decide, by decide, by decide⟩

/-- C2 counterexample: the claim says insertion fails when
`start + len(data) > logical_length`, but `insert_vec` performs no comparison
with the logical length: inserting 4 elements at offset 3 into an empty
container of logical length 5 succeeds. -/
theorem c2_cex_no_length_check :
    (SparseVec.withLen 5 : SparseVec Nat).insertVec 3 [10, 11, 12, 13]
        = some { len := 5, blocks := [(3, [10, 11, 12, 13])] }
    ∧ 5 < 3 + [10, 11, 12, 13].length := by
  refine ⟨by decide, by decide⟩

/-- C2 (amended): on every reachable container, `insert_vec(start, data)`
succeeds exactly when every existing block beginning before `start` ends at or
before `start` and every existing block beginning at or after `start` begins at
or after `start + len(data)` (so, in particular, overlap with any block span
fails regardless of insertion order, an empty block sitting at the boundary
also causes failure, and no check against the logical length is made). -/
theorem c2_insert_success_characterization (sv : SparseVec α) (start : Nat)
    (vec : List α) (hre : Reachable sv) (hbound : start + vec.length ≤ USIZE_MAX) :
    (sv.insertVec start vec).isSome = true ↔
      ∀ b ∈ sv.blocks,
        (b.1 < start → b.1 + b.2.length ≤ start) ∧
        (start ≤ b.1 → start + vec.length ≤ b.1) :=
  insertVec_isSome_iff sv start vec (reachable_blocks_ordered sv hre) hbound

/-- C2 witness: inserting `[7, 8]` at 5 next to an existing block `(0, [1, 2])`
succeeds, as the characterization predicts. -/
theorem c2_witness :
    (({ len := 10, blocks := [(0, [1, 2])] } : SparseVec Nat).insertVec 5 [7, 8]).isSome
      = true := by
  have r1 : (SparseVec.withLen 10 : SparseVec Nat).insertVec 0 [1, 2]
      = some { len := 10, blocks := [(0, [1, 2])] } := by decide
  exact (c2_insert_success_characterization _ 5 [7, 8]
    (Reachable.insert (Reachable.withLen 10) r1) (by decide)).mpr (by decide)

/-- C3: a reachable container on which `iter()` misreports a covered index as
absent.  Inserting `[42]` at 0 and then two empty vectors at 0 (all successful)
leaves the block `(0, [42])` third in the list; `Iter::next` gives up after
advancing past two empty blocks and emits `None` at index 0 even though that
index is covered by a block holding the value 42. -/
theorem c3_iter_misses_covered_value :
    (((SparseVec.withLen 1 : SparseVec Nat).insertVec 0 [42]).bind
        (fun s => s.insertVec 0 [])).bind (fun s => s.insertVec 0 [])
      = some { len := 1, blocks := [(0, []), (0, []), (0, [42])] }
    ∧ Covered ({ len := 1, blocks := [(0, []), (0, []), (0, [42])] } : SparseVec Nat) 0
    ∧ ({ len := 1, blocks := [(0, []), (0, []), (0, [42])] } : SparseVec Nat).iter.toList
        = [none] := by
  refine ⟨by decide, by decide, by decide⟩

/-- C4 counterexample: a reachable state violating the claimed invariant
`offset + len(data) <= logical_length` — `insert_vec` never compares against
the logical length, so the block `(3, [10, 11, 12, 13])` of span `[3, 7)` lives
in a container of logical length 5. -/
theorem c4_cex_block_beyond_length :
    Reachable ({ len := 5, blocks := [(3, [10, 11, 12, 13])] } : SparseVec Nat)
    ∧ (3, [10, 11, 12, 13])
        ∈ ({ len := 5, blocks := [(3, [10, 11, 12, 13])] } : SparseVec Nat).blocks
    ∧ ¬ (3 + [10, 11, 12, 13].length
          ≤ ({ len := 5, blocks := [(3, [10, 11, 12, 13])] } : SparseVec Nat).len) := by
  have r1 : (SparseVec.withLen 5 : SparseVec Nat).insertVec 3 [10, 11, 12, 13]
      = some { len := 5, blocks := [(3, [10, 11, 12, 13])] } := by decide
  exact ⟨Reachable.insert (Reachable.withLen 5) r1, by decide, by decide⟩

/-- C4 (amended): every reachable container satisfies the ordering invariant —
for each pair of consecutive blocks `(o1, d1)`, `(o2, d2)` the earlier one ends
at or before the later one begins, `o1 + len(d1) <= o2` (no overlap, adjacency
without merging permitted).  The length-bound part of the claim is dropped: a
block may extend past `logical_length` (see the counterexample). -/
theorem c4_blocks_ordered (sv : SparseVec α) (h : Reachable sv) :
    sv.blocks.Chain' (fun b1 b2 => b1.1 + b1.2.length ≤ b2.1) :=
  reachable_blocks_ordered sv h

/-- C4 witness: the ordering invariant at a concrete reachable two-block
state. -/
theorem c4_witness :
    ({ len := 10, blocks := [(0, [1, 2]), (5, [7, 8])] } : SparseVec Nat).blocks.Chain'
      (fun b1 b2 => b1.1 + b1.2.length ≤ b2.1) := by
  have r1 : (SparseVec.withLen 10 : SparseVec Nat).insertVec 0 [1, 2]
      = some { len := 10, blocks := [(0, [1, 2])] } := by decide
  have r2 : ({ len := 10, blocks := [(0, [1, 2])] } : SparseVec Nat).insertVec 5 [7, 8]
      = some { len := 10, blocks := [(0, [1, 2]), (5, [7, 8])] } := by decide
  exact c4_blocks_ordered _
    (Reachable.insert (Reachable.insert (Reachable.withLen 10) r1) r2)

/-- C5: for a non-empty view, the planner scans the should-load window
`start' = max(0, view.start - extra) .. end' = min(length, view.end + extra)`
with `extra = len(view) / 2` (on `Nat`, `view.start - extra` is exactly
`max(0, view.start - extra)`), and any returned range is contained in
`[start', end')`, hence never proposes an index outside `[0, length)`. -/
theorem c5_window_containment (sv : SparseVec α) (inView r : Range)
    (hview : inView.len ≠ 0) (hr : nextRequestForView sv inView = some r) :
    (shouldLoadFor sv inView).start = inView.start - inView.len / 2
    ∧ (shouldLoadFor sv inView).«end» = min (inView.«end» + inView.len / 2) sv.len
    ∧ (shouldLoadFor sv inView).start ≤ r.start
    ∧ r.«end» ≤ (shouldLoadFor sv inView).«end»
    ∧ r.«end» ≤ sv.len := by
  refine ⟨rfl, rfl, ?_⟩
  rw [nextRequest_eq_firstMaxRun sv inView hview] at hr
  have hmem := firstMaxRun_mem _ r hr
  simp only [absentRuns] at hmem
  have hlen := iterRange_toList_length sv (shouldLoadFor sv inView)
  have hwle : (shouldLoadFor sv inView).«end» ≤ sv.len :=
    Nat.min_le_right (inView.«end» + inView.len / 2) sv.len
  by_cases hse : (shouldLoadFor sv inView).start ≤ (shouldLoadFor sv inView).«end»
  · have hstop : (shouldLoadFor sv inView).«end»
        = (shouldLoadFor sv inView).start
            + ((sv.iterRange (shouldLoadFor sv inView)).toList).length := by
      omega
    rw [hstop] at hmem
    obtain ⟨hs1, hs2, hs3, _⟩ :=
      runsAux_sound _ none (shouldLoadFor sv inView).start r (by simp) hmem
    have hs1' : (shouldLoadFor sv inView).start ≤ r.start := hs1
    exact ⟨hs1', by omega, by omega⟩
  · have hempty : ((sv.iterRange (shouldLoadFor sv inView)).toList).length = 0 := by
      omega
    rw [List.length_eq_zero] at hempty
    rw [hempty] at hmem
    simp [runsAux] at hmem

/-- C5 witness: empty container of length 20, view `[0, 10)`: the window is
`[0, 15)` and the returned range `[0, 15)` is contained in it and in
`[0, 20)`. -/
theorem c5_witness :
    (shouldLoadFor (SparseVec.withLen 20 : SparseVec Nat) ⟨0, 10⟩).start = 0
    ∧ (shouldLoadFor (SparseVec.withLen 20 : SparseVec Nat) ⟨0, 10⟩).«end» = min 15 20
    ∧ (shouldLoadFor (SparseVec.withLen 20 : SparseVec Nat) ⟨0, 10⟩).start ≤ 0
    ∧ 15 ≤ (shouldLoadFor (SparseVec.withLen 20 : SparseVec Nat) ⟨0, 10⟩).«end»
    ∧ 15 ≤ (SparseVec.withLen 20 : SparseVec Nat).len :=
  c5_window_containment (SparseVec.withLen 20) ⟨0, 10⟩ ⟨0, 15⟩ (by decide) (by decide)

/-- C6: when the view is non-empty and the scanned window contains at least one
absent position, the planner returns exactly the first (lowest-index) maximal
run of consecutive absent positions: `firstMaxRun` keeps an earlier run on ties
(the strict `<` comparison), and `absentRuns` closes a run still open at the end
of the scan with the window's exclusive bound. -/
theorem c6_first_maximal_run (sv : SparseVec α) (inView : Range)
    (hview : inView.len ≠ 0)
    (habs : none ∈ (sv.iterRange (shouldLoadFor sv inView)).toList) :
    nextRequestForView sv inView
        = firstMaxRun (absentRuns (shouldLoadFor sv inView)
            ((sv.iterRange (shouldLoadFor sv inView)).toList))
    ∧ (nextRequestForView sv inView).isSome = true := by
  have heq := nextRequest_eq_firstMaxRun sv inView hview
  refine ⟨heq, ?_⟩
  rw [heq]
  have hne : absentRuns (shouldLoadFor sv inView)
      ((sv.iterRange (shouldLoadFor sv inView)).toList) ≠ [] := by
    unfold absentRuns
    intro hnil
    rw [runsAux_none_eq_nil_iff] at hnil
    exact hnil none habs rfl
  cases hfm : firstMaxRun (absentRuns (shouldLoadFor sv inView)
      ((sv.iterRange (shouldLoadFor sv inView)).toList)) with
  | none => exact absurd ((firstMaxRun_eq_none_iff _).1 hfm) hne
  | some m => simp

/-- C6 witness: empty container of length 20, view `[0, 10)`: the whole window
is one absent run and the planner returns it. -/
theorem c6_witness :
    nextRequestForView (SparseVec.withLen 20 : SparseVec Nat) ⟨0, 10⟩
        = firstMaxRun (absentRuns (shouldLoadFor (SparseVec.withLen 20 : SparseVec Nat) ⟨0, 10⟩)
            (((SparseVec.withLen 20 : SparseVec Nat).iterRange
                (shouldLoadFor (SparseVec.withLen 20 : SparseVec Nat) ⟨0, 10⟩)).toList))
    ∧ (nextRequestForView (SparseVec.withLen 20 : SparseVec Nat) ⟨0, 10⟩).isSome
        = true :=
  c6_first_maximal_run (SparseVec.withLen 20) ⟨0, 10⟩ (by decide) (by decide)

/-- C7 counterexample: a reachable container and a view for which every index
of the should-load window is covered by a block, yet the planner does not
return `None` — the iteration misreports index 1 as absent behind two stacked
empty blocks, so the planner reports the gap `[1, 2)`. -/
theorem c7_cex_covered_but_some :
    Reachable ({ len := 2, blocks := [(0, [3]), (1, []), (1, []), (1, [4])] } :
        SparseVec Nat)
    ∧ Covered ({ len := 2, blocks := [(0, [3]), (1, []), (1, []), (1, [4])] } :
        SparseVec Nat) 0
    ∧ Covered ({ len := 2, blocks := [(0, [3]), (1, []), (1, []), (1, [4])] } :
        SparseVec Nat) 1
    ∧ shouldLoadFor ({ len := 2, blocks := [(0, [3]), (1, []), (1, []), (1, [4])] } :
        SparseVec Nat) ⟨0, 2⟩ = ⟨0, 2⟩
    ∧ nextRequestForView ({ len := 2, blocks := [(0, [3]), (1, []), (1, []), (1, [4])] } :
        SparseVec Nat) ⟨0, 2⟩ = some ⟨1, 2⟩ := by
  have r1 : (SparseVec.withLen 2 : SparseVec Nat).insertVec 0 [3]
      = some { len := 2, blocks := [(0, [3])] } := by decide
  have r2 : ({ len := 2, blocks := [(0, [3])] } : SparseVec Nat).insertVec 1 [4]
      = some { len := 2, blocks := [(0, [3]), (1, [4])] } := by decide
  have r3 : ({ len := 2, blocks := [(0, [3]), (1, [4])] } : SparseVec Nat).insertVec 1 []
      = some { len := 2, blocks := [(0, [3]), (1, []), (1, [4])] } := by decide
  have r4 : ({ len := 2, blocks := [(0, [3]), (1, []), (1, [4])] } :
      SparseVec Nat).insertVec 1 []
      = some { len := 2, blocks := [(0, [3]), (1, []), (1, []), (1, [4])] } := by decide
  exact ⟨Reachable.insert (Reachable.insert (Reachable.insert (Reachable.insert
      (Reachable.withLen 2) r1) r2) r3) r4, by decide, by decide, by decide, by decide⟩

/-- C7 (amended): the planner returns `None` exactly when the view is empty or
the scan of the should-load window reports no absent position (every item
yielded by `iter_range` over the window is present).  Because of the iteration
slip exhibited for C1/C3, "reported present by the scan" is not always the same
as "covered by a block". -/
theorem c7_none_iff_scan_populated (sv : SparseVec α) (inView : Range) :
    nextRequestForView sv inView = none ↔
      inView.len = 0 ∨
        ∀ x ∈ (sv.iterRange (shouldLoadFor sv inView)).toList, x ≠ none := by
  by_cases hview : inView.len = 0
  · simp [nextRequestForView, hview]
  · rw [nextRequest_eq_firstMaxRun sv inView hview, firstMaxRun_eq_none_iff]
    unfold absentRuns
    rw [runsAux_none_eq_nil_iff]
    simp [hview]

/-- C8 counterexample: with a container of the maximum representable logical
length and the in-range view `[usize::MAX - 10, usize::MAX)`, the
window-expansion addition `view.end + extra` exceeds `usize::MAX` (a panic in
debug builds); under wrapping (release) arithmetic the planner answers `None`
while the idealized arithmetic answers `Some([MAX - 15, MAX))`. -/
theorem c8_cex_expansion_overflow :
    (Range.len ⟨USIZE_MAX - 10, USIZE_MAX⟩ ≠ 0)
    ∧ USIZE_MAX ≤ (SparseVec.withLen USIZE_MAX : SparseVec Nat).len
    ∧ 2 ^ 64 ≤ (⟨USIZE_MAX - 10, USIZE_MAX⟩ : Range).«end»
        + (Range.len ⟨USIZE_MAX - 10, USIZE_MAX⟩) / 2
    ∧ nextRequestForViewWrap (SparseVec.withLen USIZE_MAX : SparseVec Nat)
        ⟨USIZE_MAX - 10, USIZE_MAX⟩ = none
    ∧ nextRequestForView (SparseVec.withLen USIZE_MAX : SparseVec Nat)
        ⟨USIZE_MAX - 10, USIZE_MAX⟩ = some ⟨USIZE_MAX - 15, USIZE_MAX⟩ := by
  refine ⟨by decide, by decide, by decide, by decide, by decide⟩

/-- C8 (amended): the planning call completes with a definite answer — the
wrapping-`usize` evaluation agrees with the idealized one — for every container
and view whose window-expansion addition `view.end + len(view) / 2` stays
within `usize::MAX`; the subtraction side is always safe (`checked_sub`). -/
theorem c8_no_overflow_agreement (sv : SparseVec α) (inView : Range)
    (h : inView.«end» + inView.len / 2 ≤ USIZE_MAX) :
    nextRequestForViewWrap sv inView = nextRequestForView sv inView := by
  have hm : (inView.«end» + inView.len / 2) % 2 ^ 64 = inView.«end» + inView.len / 2 :=
    Nat.mod_eq_of_lt (by unfold USIZE_MAX at h; omega)
  simp only [nextRequestForViewWrap, nextRequestForView, shouldLoadWrapFor,
    shouldLoadFor, hm]

/-- C8 witness: on a small container the wrapping and idealized planners
agree. -/
theorem c8_witness :
    nextRequestForViewWrap (SparseVec.withLen 20 : SparseVec Nat) ⟨0, 10⟩
      = nextRequestForView (SparseVec.withLen 20 : SparseVec Nat) ⟨0, 10⟩ :=
  c8_no_overflow_agreement (SparseVec.withLen 20) ⟨0, 10⟩ (by decide)

/-- C9: a filled gap IS re-reported.  On `{len 2, blocks [(0, [7])]}` with view
`[0, 2)` the planner returns `[1, 2)`; after successfully inserting `[8]` at 1
followed by two empty vectors at 1, index 1 is covered, yet the planner again
returns exactly `[1, 2)` for the same view, because the iteration misreports
index 1 as absent behind the stacked empty blocks. -/
theorem c9_filled_gap_rereported :
    nextRequestForView ({ len := 2, blocks := [(0, [7])] } : SparseVec Nat) ⟨0, 2⟩
        = some ⟨1, 2⟩
    ∧ ((({ len := 2, blocks := [(0, [7])] } : SparseVec Nat).insertVec 1 [8]).bind
          (fun s => s.insertVec 1 [])).bind (fun s => s.insertVec 1 [])
        = some { len := 2, blocks := [(0, [7]), (1, []), (1, []), (1, [8])] }
    ∧ Covered ({ len := 2, blocks := [(0, [7]), (1, []), (1, []), (1, [8])] } :
        SparseVec Nat) 1
    ∧ nextRequestForView
        ({ len := 2, blocks := [(0, [7]), (1, []), (1, []), (1, [8])] } : SparseVec Nat)
        ⟨0, 2⟩ = some ⟨1, 2⟩ := by
  refine ⟨by decide, by decide, by decide, by decide⟩

/-- C10: whenever the planner returns `Some(r)`, the range `r` is non-empty and
every index of `r` was reported absent by the container's iteration over the
scanned window (item `j - start'` of the `iter_range` sequence is the absent
marker). -/
theorem c10_some_nonempty_and_absent (sv : SparseVec α) (inView r : Range)
    (hr : nextRequestForView sv inView = some r) :
    r.start < r.«end» ∧
      ∀ j, r.start ≤ j → j < r.«end» →
        ((sv.iterRange (shouldLoadFor sv inView)).toList)[j - (shouldLoadFor sv inView).start]?
          = some none := by
  have hview : inView.len ≠ 0 := by
    intro h0
    simp [nextRequestForView, h0] at hr
  rw [nextRequest_eq_firstMaxRun sv inView hview] at hr
  have hmem := firstMaxRun_mem _ r hr
  simp only [absentRuns] at hmem
  have hlen := iterRange_toList_length sv (shouldLoadFor sv inView)
  by_cases hse : (shouldLoadFor sv inView).start ≤ (shouldLoadFor sv inView).«end»
  · have hstop : (shouldLoadFor sv inView).«end»
        = (shouldLoadFor sv inView).start
            + ((sv.iterRange (shouldLoadFor sv inView)).toList).length := by
      omega
    rw [hstop] at hmem
    obtain ⟨hs1, hs2, _, hs4⟩ :=
      runsAux_sound _ none (shouldLoadFor sv inView).start r (by simp) hmem
    have hs1' : (shouldLoadFor sv inView).start ≤ r.start := hs1
    exact ⟨hs2, fun j hj1 hj2 => hs4 j (by omega) hj1 hj2⟩
  · have hempty : ((sv.iterRange (shouldLoadFor sv inView)).toList).length = 0 := by
      omega
    rw [List.length_eq_zero] at hempty
    rw [hempty] at hmem
    simp [runsAux] at hmem

/-- C10 witness: empty container of length 20, view `[0, 10)`: the returned
range `[0, 15)` is non-empty and (for example) its index 7 is reported absent
by the scan. -/
theorem c10_witness :
    (0 : Nat) < 15 ∧
      (((SparseVec.withLen 20 : SparseVec Nat).iterRange
          (shouldLoadFor (SparseVec.withLen 20 : SparseVec Nat) ⟨0, 10⟩)).toList)[7 -
            (shouldLoadFor (SparseVec.withLen 20 : SparseVec Nat) ⟨0, 10⟩).start]?
        = some none := by
  have h := c10_some_nonempty_and_absent (SparseVec.withLen 20 : SparseVec Nat)
    ⟨0, 10⟩ ⟨0, 15⟩ (by decide)
  exact ⟨h.1, h.2 7 (by decide) (by decide)⟩

end Longpage
